import Mathlib

/-!
Verification of the `ticktickrules` cron-like rule matcher (`rules.go`).

The Go code is shallowly embedded:
* `time.Time` (always used with a fixed UTC-style location, per the spec's
  "single, fixed civil calendar" assumption) becomes `GoTime`, a pair of an
  unbounded integer count of seconds since the Unix epoch and a nanosecond
  component.  The civil-calendar accessors `Year`/`Month`/`Day`/`Weekday`/
  `Hour`/`Minute` and the constructor `time.Date` are modelled with the
  standard proleptic-Gregorian conversions (the algorithms used by Go's
  `time` package are equivalent); `daysFromCivil`/`civilFromDays` are proved
  mutually inverse below, so the model is self-validating.  All integer
  division below is `Int./`, which rounds toward negative infinity for the
  positive divisors used here, matching the conversions' requirements.
* Strings are Lean `String`s; the two compiled regular expressions are
  modelled by decidable predicates on the character list, and
  `strings.Split(r, "/")` by `splitSlash` on the character list.
* `strconv.Atoi` is modelled by `atoi`, including its 64-bit range failure.
* Errors become tagged constructors, one per `fmt.Errorf` call site in the
  source; range errors are wrapped with the field's name by dedicated
  constructors, mirroring the `"%s rule invalid"` wrapping.
-/

/-- One decimal digit, as tested by the regex class `\d` (ASCII `0`-`9`). -/
def isDig (c : Char) : Bool := '0' ≤ c && c ≤ '9'

/-- Numeric value of a digit string (most significant digit first). -/
def natOfDigits (cs : List Char) : Nat :=
  cs.foldl (fun n c => 10 * n + (c.toNat - 48)) 0

/-- Model of `strconv.Atoi` (64-bit platform): optional sign, one or more
digits, and the value must fit in a signed 64-bit integer; any other input
yields an error (`none`). -/
def atoi (cs : List Char) : Option Int :=
  match cs with
  | [] => none
  | c :: rest =>
    let body := if c = '-' || c = '+' then rest else cs
    if body.isEmpty || !body.all isDig then none
    else
      let v : Int := if c = '-' then -(natOfDigits body : Int) else (natOfDigits body : Int)
      if -9223372036854775808 ≤ v && v ≤ 9223372036854775807 then some v else none

/-- Model of `strings.Split(s, "/")` on the character list: splits at every
`'/'`; always returns at least one (possibly empty) part. -/
def splitSlash : List Char → List (List Char)
  | [] => [[]]
  | c :: rest =>
    if c = '/' then [] :: splitSlash rest
    else
      match splitSlash rest with
      | [] => [[c]]
      | p :: ps => (c :: p) :: ps

/-! ## The timestamp model -/

/-- An instant, modelling Go's `time.Time` in the fixed (UTC) location:
`sec` seconds and `nsec` nanoseconds since the Unix epoch.  A well-formed
Go time has `0 ≤ nsec < 10^9`; theorems that need this take it as a
hypothesis. -/
structure GoTime where
  sec : Int
  nsec : Int
deriving DecidableEq

/-- Days since 1970-01-01 of the day containing the instant (floor). -/
def daysOf (t : GoTime) : Int := t.sec / 86400

/-- Model of `Time.Hour` (hour of day, `0`-`23`). -/
def hourOf (t : GoTime) : Int := t.sec % 86400 / 3600

/-- Model of `Time.Minute` (minute of hour, `0`-`59`). -/
def minuteOf (t : GoTime) : Int := t.sec % 3600 / 60

/-- Model of `Time.Weekday` as an integer (`0` = Sunday): 1970-01-01 was a
Thursday (`4`). -/
def weekdayOf (t : GoTime) : Int := (daysOf t + 4) % 7

/-- Proleptic-Gregorian conversion from days-since-epoch to
`(year, month, day)`; the standard civil-from-days algorithm, equivalent to
the conversion in Go's `time` package. -/
def civilFromDays (z : Int) : Int × Int × Int :=
  let z' := z + 719468
  let era := z' / 146097
  let doe := z' - era * 146097
  let yoe := (doe - doe / 1460 + doe / 36524 - doe / 146096) / 365
  let doy := doe - (365 * yoe + yoe / 4 - yoe / 100)
  let mp := (5 * doy + 2) / 153
  let d := doy - (153 * mp + 2) / 5 + 1
  let m := mp + (if mp < 10 then 3 else -9)
  (yoe + era * 400 + (if m ≤ 2 then 1 else 0), m, d)

/-- Model of `Time.Year`. -/
def yearOf (t : GoTime) : Int := (civilFromDays (daysOf t)).1

/-- Model of `Time.Month` as an integer (`1`-`12`). -/
def monthOf (t : GoTime) : Int := (civilFromDays (daysOf t)).2.1

/-- Model of `Time.Day` (day of month, `1`-`31`). -/
def dayOf (t : GoTime) : Int := (civilFromDays (daysOf t)).2.2

/-- Proleptic-Gregorian conversion from `(year, month, day)` (month in
`1`-`12`) to days-since-epoch; the standard days-from-civil algorithm. -/
def daysFromCivil (y m d : Int) : Int :=
  let y' := y - (if m ≤ 2 then 1 else 0)
  let era := y' / 400
  let yoe := y' - era * 400
  let doy := (153 * (m + (if 2 < m then -3 else 9)) + 2) / 5 + d - 1
  let doe := yoe * 365 + yoe / 4 - yoe / 100 + doy
  era * 146097 + doe - 719468

set_option maxHeartbeats 4000000 in
/-- Within one 400-year era, the year extracted by the civil-from-days
algorithm starts at most 365 days before the given day-of-era and not
after it: the day-of-year offset is between 0 and 365. -/
theorem doy_bounds (doe b : Int) (h0 : 0 ≤ doe) (h0' : doe ≤ 146096)
    (hb : b = (doe - doe / 1460 + doe / 36524 - doe / 146096) / 365) :
    365 * b + b / 4 - b / 100 ≤ doe ∧ doe ≤ 365 * b + b / 4 - b / 100 + 365 := by
  have h1 : 0 ≤ b := by omega
  have h2 : b ≤ 399 := by omega
  interval_cases b <;> omega

/-- The two civil-calendar conversions are mutually inverse, so building a
`time.Date` from the year/month/day of an existing instant reconstructs
that instant's day. -/
theorem daysFromCivil_civilFromDays (z : Int) :
    daysFromCivil (civilFromDays z).1 (civilFromDays z).2.1 (civilFromDays z).2.2 = z := by
  have key : ∀ era doe yoe doy mp : Int,
      era = (z + 719468) / 146097 →
      doe = z + 719468 - era * 146097 →
      yoe = (doe - doe / 1460 + doe / 36524 - doe / 146096) / 365 →
      doy = doe - (365 * yoe + yoe / 4 - yoe / 100) →
      mp = (5 * doy + 2) / 153 →
      daysFromCivil
        (yoe + era * 400 + (if (mp + (if mp < 10 then 3 else -9)) ≤ 2 then 1 else 0))
        (mp + (if mp < 10 then 3 else -9))
        (doy - (153 * mp + 2) / 5 + 1) = z := by
    intro era doe yoe doy mp hera hdoe hyoe hdoy hmp
    have hdoeb : 0 ≤ doe ∧ doe ≤ 146096 := by omega
    have hb := doy_bounds doe yoe hdoeb.1 hdoeb.2 hyoe
    have hdoyb : 0 ≤ doy ∧ doy ≤ 365 := by omega
    have hyoeb : 0 ≤ yoe ∧ yoe ≤ 399 := by omega
    have hmpb : 0 ≤ mp ∧ mp ≤ 11 := by omega
    clear hb hyoe hmp hera
    rcases hmpb with ⟨hmp0, hmp11⟩
    rcases hyoeb with ⟨hyoe0, hyoe399⟩
    by_cases hlt : mp < 10
    · rw [if_pos hlt]
      have hm2 : ¬ (mp + 3 ≤ 2) := by omega
      rw [if_neg hm2]
      simp only [daysFromCivil]
      rw [if_neg hm2, if_pos (show (2 : Int) < mp + 3 by omega)]
      have e0 : yoe + era * 400 + 0 - 0 = yoe + era * 400 := by ring
      rw [e0]
      have e1 : (yoe + era * 400) / 400 = era := by omega
      rw [e1]
      have e2 : yoe + era * 400 - era * 400 = yoe := by ring
      rw [e2]
      have e3 : 153 * (mp + 3 + -3) + 2 = 153 * mp + 2 := by ring
      rw [e3]
      omega
    · rw [if_neg hlt]
      have hm2 : mp + -9 ≤ 2 := by omega
      rw [if_pos hm2]
      simp only [daysFromCivil]
      rw [if_pos hm2, if_neg (show ¬ (2 : Int) < mp + -9 by omega)]
      have e0 : yoe + era * 400 + 1 - 1 = yoe + era * 400 := by ring
      rw [e0]
      have e1 : (yoe + era * 400) / 400 = era := by omega
      rw [e1]
      have e2 : yoe + era * 400 - era * 400 = yoe := by ring
      rw [e2]
      have e3 : 153 * (mp + -9 + 9) + 2 = 153 * mp + 2 := by ring
      rw [e3]
      omega
  exact key _ _ _ _ _ rfl rfl rfl rfl rfl

/-- Model of `time.Date(y, m, d, h, mi, 0, 0, utc)` for a month already in
`1`-`12` (every call in `rules.go` passes the month of an existing instant).
Go normalizes the clock fields by carrying whole units between them, which
leaves the total `3600*h + 60*mi` unchanged, so the instant is
`day*86400 + 3600*h + 60*mi` seconds with a zero nanosecond component. -/
def dateUTC (y m d h mi : Int) : GoTime :=
  ⟨86400 * daysFromCivil y m d + 3600 * h + 60 * mi, 0⟩

/-- Model of `Time.Before`: lexicographic on (seconds, nanoseconds). -/
def GoTime.before (a b : GoTime) : Bool :=
  a.sec < b.sec || (a.sec == b.sec && a.nsec < b.nsec)

/-- Model of `t.Add(24 * time.Hour)`. -/
def addDay (t : GoTime) : GoTime := ⟨t.sec + 86400, t.nsec⟩

/-- Model of `t.Truncate(time.Minute)`: round down to a whole minute (the
zero time's offset is a multiple of 60 seconds, so this is a floor in Unix
seconds) and clear the nanoseconds. -/
def truncMinute (t : GoTime) : GoTime := ⟨60 * (t.sec / 60), 0⟩

/-- Model of `time.Unix(1<<62, 0)`, the far-future sentinel. -/
def sentinel : GoTime := ⟨4611686018427387904, 0⟩

example : daysFromCivil 2000 1 1 = 10957 := by decide
example : civilFromDays 10957 = (2000, 1, 1) := by decide
example : civilFromDays 11016 = (2000, 2, 29) := by decide
example : weekdayOf ⟨946684800, 0⟩ = 6 := by decide

/-! ## Errors

One constructor per `fmt.Errorf` call site in `rules.go`.  Parse errors are
returned by `NewRule` as-is (`RuleErr.parse`); range errors are wrapped
with the offending field's name (`"Minute rule invalid: ..."` and so on),
which the dedicated constructors record. -/

/-- The errors produced by `parseRuleItem`, carrying the raw item text. -/
inductive ParseErr where
  | couldNotParse (r : String)
  | cannotBeZero (r : String)
  | doesNotDivide (r : String)
  | badOrdering (r : String)
  | notSupported (r : String)
deriving DecidableEq

/-- The errors produced by `validateItemsRange`, carrying the offending
value and the violated bound. -/
inductive RangeErr where
  | tooBig (i bound : Int)
  | tooSmall (i bound : Int)
deriving DecidableEq

/-- The errors returned by `NewRule`: either an unwrapped parse error, or a
range error wrapped with the field's name. -/
inductive RuleErr where
  | parse (e : ParseErr)
  | minuteInvalid (e : RangeErr)
  | hourInvalid (e : RangeErr)
  | dayOfWeekInvalid (e : RangeErr)
  | dayOfMonthInvalid (e : RangeErr)
  | monthInvalid (e : RangeErr)
deriving DecidableEq

/-- Whether a `NewRule` error message carries a field name (all range
errors do; parse errors are surfaced without one). -/
def RuleErr.hasFieldName : RuleErr → Bool
  | .parse _ => false
  | _ => true

/-! ## Rule structure and field parsing -/

/-- The `Rule` struct of `rules.go`: for each of the five fields, the
parsed value set (empty means wildcard) and the raw rule text. -/
structure Rule where
  minute : List Int
  minuteRule : String
  hour : List Int
  hourRule : String
  dayOfWeek : List Int
  dayOfWeekRule : String
  dayOfMonth : List Int
  dayOfMonthRule : String
  month : List Int
  monthRule : String
deriving DecidableEq

/-- Model of the regex `ruleType1 = ^\*/\d+$`. -/
def ruleType1Match : List Char → Bool
  | '*' :: '/' :: ds => !ds.isEmpty && ds.all isDig
  | _ => false

/-- Model of the regex `ruleType2 = ^\d+(?:/\d+)+$`: splitting on `/`
yields at least two parts, each a nonempty digit string. -/
def ruleType2Match (cs : List Char) : Bool :=
  let ps := splitSlash cs
  2 ≤ ps.length && ps.all fun p => !p.isEmpty && p.all isDig

/-- The `for` loop of the stepped-wildcard branch: append the running sum,
add the step, stop once the sum reaches `maxsum`.  The loop has no counter;
the `fuel` argument only bounds the recursion and is chosen large enough at
the call site (`maxsum.toNat`) that, for the positive steps reaching this
loop, it never runs out before the stop condition fires. -/
def stepGenF : Nat → Int → Int → Int → List Int
  | 0, _, _, sum => [sum]
  | fuel + 1, v, maxsum, sum =>
    sum :: (if maxsum ≤ sum + v then [] else stepGenF fuel v maxsum (sum + v))

/-- The explicit-list branch of `parseRuleItem`: parse each `/`-separated
token, require each value to exceed the previous one (`lst`, initially 0),
and collect the values in order.  `r` is the whole item, used in errors. -/
def listParse (r : String) : List (List Char) → Int → Except ParseErr (List Int)
  | [], _ => .ok []
  | p :: rest, lst =>
    match atoi p with
    | none => .error (.couldNotParse r)
    | some v =>
      if v ≤ lst then .error (.badOrdering r)
      else (listParse r rest v).map (v :: ·)

/-- Model of `parseRuleItem`: dispatch on the four grammar forms in source
order (`*`, `*/N`, `A/B[/C...]`, single integer).  In the `*/N` branch,
`strings.Split(r, "/")[1]` is the second part of `splitSlash`. -/
def parseRuleItem (r : String) (maxsum : Int) : Except ParseErr (List Int) :=
  if r = "*" then .ok []
  else if ruleType1Match r.data then
    let i := (splitSlash r.data).getD 1 []
    match atoi i with
    | none => .error (.couldNotParse r)
    | some v =>
      if v = 0 then .error (.cannotBeZero r)
      else if maxsum ≤ v then .error (.doesNotDivide r)
      else .ok (stepGenF maxsum.toNat v maxsum 0)
  else if ruleType2Match r.data then
    listParse r (splitSlash r.data) 0
  else
    match atoi r.data with
    | none => .error (.notSupported r)
    | some v => .ok [v]

/-- Model of `validateItemsRange`: first value outside `[lo, hi]` produces
the error (the `> max` test comes first, as in the source); `none` means
every value is in range. -/
def validateItemsRange (items : List Int) (lo hi : Int) : Option RangeErr :=
  match items with
  | [] => none
  | i :: rest =>
    if hi < i then some (.tooBig i hi)
    else if i < lo then some (.tooSmall i lo)
    else validateItemsRange rest lo hi

/-- Model of `doesMatch`: linear scan for `v` in `vs`. -/
def doesMatch (v : Int) (vs : List Int) : Bool :=
  vs.any fun i => v == i

/-- Model of `NewRule`: parse and range-check each field in source order
(minute, hour, day-of-week, day-of-month, month), stopping at the first
error; parse errors are returned as-is, range errors wrapped with the
field's name.  Note the month field is parsed with `maxsum = 24` (as in
the source) but range-checked against `1..12`. -/
def NewRule (minute hour dayOfMonth month dayOfWeek : String) : Except RuleErr Rule :=
  match parseRuleItem minute 60 with
  | .error e => .error (.parse e)
  | .ok m =>
    match validateItemsRange m 0 59 with
    | some e => .error (.minuteInvalid e)
    | none =>
      match parseRuleItem hour 24 with
      | .error e => .error (.parse e)
      | .ok h =>
        match validateItemsRange h 0 23 with
        | some e => .error (.hourInvalid e)
        | none =>
          match parseRuleItem dayOfWeek 7 with
          | .error e => .error (.parse e)
          | .ok dow =>
            match validateItemsRange dow 0 7 with
            | some e => .error (.dayOfWeekInvalid e)
            | none =>
              match parseRuleItem dayOfMonth 31 with
              | .error e => .error (.parse e)
              | .ok dom =>
                match validateItemsRange dom 1 31 with
                | some e => .error (.dayOfMonthInvalid e)
                | none =>
                  match parseRuleItem month 24 with
                  | .error e => .error (.parse e)
                  | .ok mo =>
                    match validateItemsRange mo 1 12 with
                    | some e => .error (.monthInvalid e)
                    | none =>
                      .ok ⟨m, minute, h, hour, dow, dayOfWeek, dom, dayOfMonth, mo, month⟩

/-- Model of `Rule.String()`: the five raw rule texts joined by single
spaces, in the order minute, hour, day-of-month, month, day-of-week. -/
def ruleString (r : Rule) : String :=
  r.minuteRule ++ " " ++ r.hourRule ++ " " ++ r.dayOfMonthRule ++ " " ++
    r.monthRule ++ " " ++ r.dayOfWeekRule

/-- Model of `Rule.Matches`: each nonempty field set must contain the
corresponding component of `t`; empty sets impose no constraint.  The
`&&`/`||` shape mirrors the early-return chain of the source. -/
def Matches (r : Rule) (t : GoTime) : Bool :=
  (r.month.isEmpty || doesMatch (monthOf t) r.month) &&
  ((r.dayOfWeek.isEmpty || doesMatch (weekdayOf t) r.dayOfWeek) &&
  ((r.dayOfMonth.isEmpty || doesMatch (dayOf t) r.dayOfMonth) &&
  ((r.hour.isEmpty || doesMatch (hourOf t) r.hour) &&
  (r.minute.isEmpty || doesMatch (minuteOf t) r.minute))))

/-- `naiveMaxIterations = 31 * 8 * 12`. -/
def naiveMaxIterations : Nat := 31 * 8 * 12

/-- Model of `roundUp`: first item greater than `current`, else the first
item; `current + 1` when the set is empty. -/
def roundUp (current : Int) (items : List Int) : Int :=
  match items with
  | [] => current + 1
  | x :: xs =>
    match (x :: xs).find? (fun i => current < i) with
    | some i => i
    | none => x

/-- The day-stepping loop at the end of `naiveNextFrom`: return the
truncated instant on a match, otherwise step one day and count an
iteration, bailing out with the sentinel once the counter passes
`naiveMaxIterations`. -/
def naiveLoop (r : Rule) (t : GoTime) (numIterations : Nat) : GoTime :=
  if Matches r t then truncMinute t
  else
    let t' := addDay t
    let n' := numIterations + 1
    if naiveMaxIterations < n' then sentinel
    else naiveLoop r t' n'
termination_by naiveMaxIterations + 1 - numIterations
decreasing_by simp only [naiveMaxIterations] at *; omega

/-- Model of `naiveNextFrom` (the body of `NextFrom`): round the minute up,
try the fast path within the current hour, otherwise round the hour up,
guard against going backwards by jumping a day, then iterate in whole days. -/
def naiveNextFrom (r : Rule) (t : GoTime) : GoTime :=
  let originalFrom := t
  let originalMinute := minuteOf t
  let originalHour := hourOf t
  let nextMinute0 := roundUp originalMinute r.minute
  let nextMinute := if 60 ≤ nextMinute0 then 0 else nextMinute0
  let from1 := dateUTC (yearOf t) (monthOf t) (dayOf t) (hourOf t) nextMinute
  if originalMinute < nextMinute ∧ Matches r from1 = true then from1
  else
    let nextHour0 := roundUp originalHour r.hour
    let nextHour := if 24 ≤ nextHour0 then 0 else nextHour0
    let from2 := dateUTC (yearOf from1) (monthOf from1) (dayOf from1) nextHour (minuteOf from1)
    let from3 := if from2.before originalFrom then addDay from2 else from2
    naiveLoop r from3 0

example : parseRuleItem "*" 60 = .ok [] := rfl
example : parseRuleItem "*/5" 60 = .ok [0, 5, 10, 15, 20, 25, 30, 35, 40, 45, 50, 55] := rfl
example : parseRuleItem "*/0" 60 = .error (.cannotBeZero "*/0") := rfl
example : parseRuleItem "*/60" 60 = .error (.doesNotDivide "*/60") := rfl
example : parseRuleItem "10/20/30" 60 = .ok [10, 20, 30] := rfl
example : parseRuleItem "30/20/10" 60 = .error (.badOrdering "30/20/10") := rfl
example : parseRuleItem "16" 60 = .ok [16] := rfl
example : parseRuleItem "-1" 60 = .ok [-1] := rfl
example : parseRuleItem "x" 60 = .error (.notSupported "x") := rfl
example : NewRule "60" "*" "*" "*" "*" = .error (.minuteInvalid (.tooBig 60 59)) := rfl
example : NewRule "16" "*" "*" "*" "*" =
    .ok ⟨[16], "16", [], "*", [], "*", [], "*", [], "*"⟩ := rfl

/-! ## Reference pipeline (for the constructor-contract claim)

A second, spec-side description of the constructor: one stage per field,
run in the fixed order minute, hour, day-of-week, day-of-month, month,
stopping at the first error.  `NewRule` is proved equal to it below. -/

/-- One field stage of the reference pipeline: grammar, then range check;
the parse error is surfaced unwrapped, the range error wrapped by `wrap`. -/
def fieldStage (wrap : RangeErr → RuleErr) (s : String) (maxsum lo hi : Int) :
    Except RuleErr (List Int) :=
  match parseRuleItem s maxsum with
  | .error e => .error (.parse e)
  | .ok items =>
    match validateItemsRange items lo hi with
    | some e => .error (wrap e)
    | none => .ok items

/-- The reference constructor: five stages in the fixed validation order,
first error wins, full record only on success. -/
def newRuleRef (minute hour dayOfMonth month dayOfWeek : String) : Except RuleErr Rule := do
  let m ← fieldStage RuleErr.minuteInvalid minute 60 0 59
  let hh ← fieldStage RuleErr.hourInvalid hour 24 0 23
  let dw ← fieldStage RuleErr.dayOfWeekInvalid dayOfWeek 7 0 7
  let dm ← fieldStage RuleErr.dayOfMonthInvalid dayOfMonth 31 1 31
  let mo ← fieldStage RuleErr.monthInvalid month 24 1 12
  pure ⟨m, minute, hh, hour, dw, dayOfWeek, dm, dayOfMonth, mo, month⟩

theorem newRule_eq_ref (mi h dom mo dw : String) :
    NewRule mi h dom mo dw = newRuleRef mi h dom mo dw := by
  unfold NewRule newRuleRef fieldStage
  cases parseRuleItem mi 60 with
  | error e => rfl
  | ok m =>
    dsimp only
    cases validateItemsRange m 0 59 with
    | some e => rfl
    | none =>
      dsimp only
      cases parseRuleItem h 24 with
      | error e => rfl
      | ok hh =>
        dsimp only
        cases validateItemsRange hh 0 23 with
        | some e => rfl
        | none =>
          dsimp only
          cases parseRuleItem dw 7 with
          | error e => rfl
          | ok dwv =>
            dsimp only
            cases validateItemsRange dwv 0 7 with
            | some e => rfl
            | none =>
              dsimp only
              cases parseRuleItem dom 31 with
              | error e => rfl
              | ok dmv =>
                dsimp only
                cases validateItemsRange dmv 1 31 with
                | some e => rfl
                | none =>
                  dsimp only
                  cases parseRuleItem mo 24 with
                  | error e => rfl
                  | ok mov =>
                    dsimp only
                    cases validateItemsRange mov 1 12 with
                    | some e => rfl
                    | none => rfl

/-! ## Inversion and bounds lemmas -/

theorem validateItemsRange_none {items : List Int} {lo hi : Int}
    (h : validateItemsRange items lo hi = none) : ∀ x ∈ items, lo ≤ x ∧ x ≤ hi := by
  induction items with
  | nil => intro x hx; cases hx
  | cons a l ih =>
    intro x hx
    simp only [validateItemsRange] at h
    by_cases h1 : hi < a
    · rw [if_pos h1] at h; cases h
    · rw [if_neg h1] at h
      by_cases h2 : a < lo
      · rw [if_pos h2] at h; cases h
      · rw [if_neg h2] at h
        rcases List.mem_cons.mp hx with rfl | hx'
        · omega
        · exact ih h x hx'

theorem NewRule_ok_inv {mi h dom mo dw : String} {r : Rule}
    (hr : NewRule mi h dom mo dw = .ok r) :
    parseRuleItem mi 60 = .ok r.minute ∧ validateItemsRange r.minute 0 59 = none ∧
    parseRuleItem h 24 = .ok r.hour ∧ validateItemsRange r.hour 0 23 = none ∧
    parseRuleItem dw 7 = .ok r.dayOfWeek ∧ validateItemsRange r.dayOfWeek 0 7 = none ∧
    parseRuleItem dom 31 = .ok r.dayOfMonth ∧ validateItemsRange r.dayOfMonth 1 31 = none ∧
    parseRuleItem mo 24 = .ok r.month ∧ validateItemsRange r.month 1 12 = none ∧
    r.minuteRule = mi ∧ r.hourRule = h ∧ r.dayOfWeekRule = dw ∧
    r.dayOfMonthRule = dom ∧ r.monthRule = mo := by
  unfold NewRule at hr
  split at hr
  · cases hr
  split at hr
  · cases hr
  split at hr
  · cases hr
  split at hr
  · cases hr
  split at hr
  · cases hr
  split at hr
  · cases hr
  split at hr
  · cases hr
  split at hr
  · cases hr
  split at hr
  · cases hr
  split at hr
  · cases hr
  cases hr
  exact ⟨‹_›, ‹_›, ‹_›, ‹_›, ‹_›, ‹_›, ‹_›, ‹_›, ‹_›, ‹_›, rfl, rfl, rfl, rfl, rfl⟩

theorem roundUp_mem_or (c : Int) (items : List Int) :
    (items = [] ∧ roundUp c items = c + 1) ∨ roundUp c items ∈ items := by
  cases items with
  | nil => exact Or.inl ⟨rfl, rfl⟩
  | cons x xs =>
    right
    unfold roundUp
    cases hf : (x :: xs).find? (fun i => decide (c < i)) with
    | some i => simp only [hf]; exact List.mem_of_find?_eq_some hf
    | none => simp only [hf]; exact List.mem_cons_self x xs

theorem truncMinute_self {t : GoTime} (h1 : t.sec % 60 = 0) (h2 : t.nsec = 0) :
    truncMinute t = t := by
  cases t
  simp only [truncMinute, GoTime.mk.injEq]
  simp only at h1 h2
  omega

theorem naiveLoop_eq (r : Rule) (t : GoTime) (n : Nat) :
    naiveLoop r t n =
      if Matches r t then truncMinute t
      else if naiveMaxIterations < n + 1 then sentinel
      else naiveLoop r (addDay t) (n + 1) := by
  rw [naiveLoop]

/-- Invariant of the day-stepping loop: started at a whole-minute instant
not before `t`, it returns the sentinel or a whole-minute instant not
before `t`. -/
theorem naiveLoop_inv (r : Rule) (t : GoTime) :
    ∀ (fuel n : Nat) (t0 : GoTime), naiveMaxIterations + 1 - n ≤ fuel →
      t0.sec % 60 = 0 → t0.nsec = 0 → t0.before t = false →
      naiveLoop r t0 n = sentinel ∨
        ((naiveLoop r t0 n).before t = false ∧
          (naiveLoop r t0 n).sec % 60 = 0 ∧ (naiveLoop r t0 n).nsec = 0) := by
  intro fuel
  induction fuel with
  | zero =>
    intro n t0 hf ha1 ha2 hle
    rw [naiveLoop_eq]
    by_cases hmt : Matches r t0 = true
    · rw [if_pos hmt, truncMinute_self ha1 ha2]; exact Or.inr ⟨hle, ha1, ha2⟩
    · rw [if_neg hmt, if_pos (show naiveMaxIterations < n + 1 by
        simp only [naiveMaxIterations] at *; omega)]
      exact Or.inl rfl
  | succ f ih =>
    intro n t0 hf ha1 ha2 hle
    rw [naiveLoop_eq]
    by_cases hmt : Matches r t0 = true
    · rw [if_pos hmt, truncMinute_self ha1 ha2]; exact Or.inr ⟨hle, ha1, ha2⟩
    · rw [if_neg hmt]
      by_cases hn : naiveMaxIterations < n + 1
      · rw [if_pos hn]; exact Or.inl rfl
      · rw [if_neg hn]
        refine ih (n + 1) (addDay t0) (by omega) ?_ ?_ ?_
        · simp only [addDay]; omega
        · simp only [addDay]; exact ha2
        · simp only [GoTime.before, addDay] at hle ⊢
          simp only [Bool.or_eq_false_iff, Bool.and_eq_false_iff,
            decide_eq_false_iff_not, beq_eq_false_iff_ne] at hle ⊢
          omega

/-- If a rule matches no instant at all, the day-stepping loop always ends
in the sentinel. -/
theorem naiveLoop_neverMatch (r : Rule) (hnm : ∀ u, Matches r u = false) :
    ∀ (fuel n : Nat) (t0 : GoTime), naiveMaxIterations + 1 - n ≤ fuel →
      naiveLoop r t0 n = sentinel := by
  intro fuel
  induction fuel with
  | zero =>
    intro n t0 hf
    rw [naiveLoop_eq, if_neg (by simp [hnm t0]),
      if_pos (show naiveMaxIterations < n + 1 by simp only [naiveMaxIterations] at *; omega)]
  | succ f ih =>
    intro n t0 hf
    rw [naiveLoop_eq, if_neg (by simp [hnm t0])]
    by_cases hn : naiveMaxIterations < n + 1
    · rw [if_pos hn]
    · rw [if_neg hn]; exact ih (n + 1) (addDay t0) (by omega)

theorem dateUTC_same_day (t : GoTime) (h mi : Int) :
    dateUTC (yearOf t) (monthOf t) (dayOf t) h mi =
      ⟨86400 * (t.sec / 86400) + 3600 * h + 60 * mi, 0⟩ := by
  unfold dateUTC yearOf monthOf dayOf daysOf
  rw [daysFromCivil_civilFromDays]

/-! ## Occurrence-search analysis -/

/-- The clamped next minute chosen by `naiveNextFrom`. -/
def nextMinuteVal (r : Rule) (t : GoTime) : Int :=
  if 60 ≤ roundUp (minuteOf t) r.minute then 0 else roundUp (minuteOf t) r.minute

/-- The first candidate built by `naiveNextFrom` (same day and hour, next
minute). -/
def from1Val (r : Rule) (t : GoTime) : GoTime :=
  dateUTC (yearOf t) (monthOf t) (dayOf t) (hourOf t) (nextMinuteVal r t)

/-- The clamped next hour chosen by `naiveNextFrom`. -/
def nextHourVal (r : Rule) (t : GoTime) : Int :=
  if 24 ≤ roundUp (hourOf t) r.hour then 0 else roundUp (hourOf t) r.hour

/-- The second candidate (same day, next hour, next minute). -/
def from2Val (r : Rule) (t : GoTime) : GoTime :=
  dateUTC (yearOf (from1Val r t)) (monthOf (from1Val r t)) (dayOf (from1Val r t))
    (nextHourVal r t) (minuteOf (from1Val r t))

/-- The loop's starting point: the second candidate, pushed one day ahead
when it lies before the original instant. -/
def from3Val (r : Rule) (t : GoTime) : GoTime :=
  if (from2Val r t).before t then addDay (from2Val r t) else from2Val r t

/-- `naiveNextFrom` written in terms of the named candidates (definitional). -/
theorem naiveNextFrom_eq (r : Rule) (t : GoTime) :
    naiveNextFrom r t =
      if minuteOf t < nextMinuteVal r t ∧ Matches r (from1Val r t) = true
      then from1Val r t else naiveLoop r (from3Val r t) 0 := rfl

theorem before_false (a b : GoTime) :
    (a.before b = false) ↔ (b.sec < a.sec ∨ (b.sec = a.sec ∧ b.nsec ≤ a.nsec)) := by
  simp only [GoTime.before, Bool.or_eq_false_iff, Bool.and_eq_false_iff,
    decide_eq_false_iff_not, not_lt, beq_eq_false_iff_ne, ne_eq]
  omega

/-- Main invariant of the occurrence search: for a rule whose minute and
hour sets contain only in-range values, the result is either the sentinel
or a whole-minute instant that is not before the starting instant. -/
theorem nextFrom_ge (r : Rule) (t : GoTime)
    (hm : ∀ x ∈ r.minute, 0 ≤ x ∧ x ≤ 59)
    (hh : ∀ x ∈ r.hour, 0 ≤ x ∧ x ≤ 23) :
    naiveNextFrom r t = sentinel ∨
      ((naiveNextFrom r t).before t = false ∧
        (naiveNextFrom r t).sec % 60 = 0 ∧ (naiveNextFrom r t).nsec = 0) := by
  rw [naiveNextFrom_eq]
  have hMin : 0 ≤ minuteOf t ∧ minuteOf t ≤ 59 := by unfold minuteOf; omega
  have hH : 0 ≤ hourOf t ∧ hourOf t ≤ 23 := by unfold hourOf; omega
  have hident : 86400 * (t.sec / 86400) + 3600 * hourOf t + 60 * minuteOf t ≤ t.sec ∧
      t.sec < 86400 * (t.sec / 86400) + 3600 * hourOf t + 60 * minuteOf t + 60 := by
    unfold hourOf minuteOf; omega
  have hnm : 0 ≤ nextMinuteVal r t ∧ nextMinuteVal r t ≤ 59 := by
    unfold nextMinuteVal
    rcases roundUp_mem_or (minuteOf t) r.minute with ⟨_, hru⟩ | hru
    · rw [hru]; split_ifs <;> omega
    · have := hm _ hru; split_ifs <;> omega
  have hf1 : from1Val r t =
      ⟨86400 * (t.sec / 86400) + 3600 * hourOf t + 60 * nextMinuteVal r t, 0⟩ :=
    dateUTC_same_day t _ _
  by_cases hfast : minuteOf t < nextMinuteVal r t ∧ Matches r (from1Val r t) = true
  · rw [if_pos hfast]
    right
    refine ⟨?_, ?_, ?_⟩
    · rw [before_false, hf1]
      left
      dsimp only
      omega
    · rw [hf1]; dsimp only; omega
    · rw [hf1]
  · rw [if_neg hfast]
    have hnh : 0 ≤ nextHourVal r t ∧ nextHourVal r t ≤ 23 := by
      unfold nextHourVal
      rcases roundUp_mem_or (hourOf t) r.hour with ⟨_, hru⟩ | hru
      · rw [hru]; split_ifs <;> omega
      · have := hh _ hru; split_ifs <;> omega
    have hf1day : (from1Val r t).sec / 86400 = t.sec / 86400 := by
      rw [hf1]; dsimp only; omega
    have hf1min : minuteOf (from1Val r t) = nextMinuteVal r t := by
      rw [hf1]; unfold minuteOf; dsimp only; omega
    have hf2 : from2Val r t =
        ⟨86400 * (t.sec / 86400) + 3600 * nextHourVal r t + 60 * nextMinuteVal r t, 0⟩ := by
      unfold from2Val
      rw [dateUTC_same_day (from1Val r t) _ _, hf1day, hf1min]
    unfold from3Val
    by_cases hbf : (from2Val r t).before t = true
    · rw [if_pos hbf]
      refine naiveLoop_inv r t (naiveMaxIterations + 1) 0 (addDay (from2Val r t))
        (by omega) ?_ ?_ ?_
      · rw [hf2]; simp only [addDay]; omega
      · rw [hf2]; simp only [addDay]
      · rw [before_false, hf2]
        simp only [addDay]
        left
        dsimp only
        omega
    · rw [if_neg hbf]
      refine naiveLoop_inv r t (naiveMaxIterations + 1) 0 (from2Val r t)
        (by omega) ?_ ?_ ?_
      · rw [hf2]; dsimp only; omega
      · rw [hf2]
      · exact Bool.eq_false_iff.mpr hbf

/-- No proleptic-Gregorian date in month 2 has a day beyond 30 (in fact 29,
but 30 suffices to rule out day 31). -/
theorem civil_month2_day_le (z : Int) :
    (civilFromDays z).2.1 = 2 → (civilFromDays z).2.2 ≤ 30 := by
  have key : ∀ era doe yoe doy mp : Int,
      era = (z + 719468) / 146097 →
      doe = z + 719468 - era * 146097 →
      yoe = (doe - doe / 1460 + doe / 36524 - doe / 146096) / 365 →
      doy = doe - (365 * yoe + yoe / 4 - yoe / 100) →
      mp = (5 * doy + 2) / 153 →
      (mp + (if mp < 10 then 3 else -9)) = 2 → doy - (153 * mp + 2) / 5 + 1 ≤ 30 := by
    intro era doe yoe doy mp hera hdoe hyoe hdoy hmp hm2
    have hdoeb : 0 ≤ doe ∧ doe ≤ 146096 := by omega
    have hb := doy_bounds doe yoe hdoeb.1 hdoeb.2 hyoe
    have hdoyb : 0 ≤ doy ∧ doy ≤ 365 := by omega
    by_cases hlt : mp < 10
    · rw [if_pos hlt] at hm2; omega
    · rw [if_neg hlt] at hm2; omega
  exact key _ _ _ _ _ rfl rfl rfl rfl rfl

/-- A rule requiring day-of-month 31 in month 2 matches no instant. -/
theorem feb31_never_matches (r : Rule) (hdom : r.dayOfMonth = [31]) (hmo : r.month = [2])
    (t : GoTime) : Matches r t = false := by
  have hd : monthOf t = 2 → dayOf t ≤ 30 := civil_month2_day_le (daysOf t)
  by_cases h2 : monthOf t = 2
  · have h31 : dayOf t ≠ 31 := by
      have := hd h2
      omega
    simp [Matches, hdom, hmo, doesMatch, h2, h31]
  · simp [Matches, hdom, hmo, doesMatch, h2]

/-- If a rule matches no instant, the occurrence search returns the
far-future sentinel (for any starting instant). -/
theorem nextFrom_neverMatch (r : Rule) (hnm : ∀ u, Matches r u = false) (t : GoTime) :
    naiveNextFrom r t = sentinel := by
  rw [naiveNextFrom_eq]
  rw [if_neg (by simp [hnm])]
  exact naiveLoop_neverMatch r hnm (naiveMaxIterations + 1) 0 _ (by omega)

theorem doesMatch_iff (v : Int) (vs : List Int) : doesMatch v vs = true ↔ v ∈ vs := by
  unfold doesMatch
  simp only [List.any_eq_true, beq_iff_eq]
  constructor
  · rintro ⟨x, hx, rfl⟩; exact hx
  · intro hv; exact ⟨v, hv, rfl⟩

/-- `Matches` is the conjunction of the five membership constraints, empty
sets imposing none. -/
theorem Matches_iff (r : Rule) (t : GoTime) :
    Matches r t = true ↔
      ((r.month ≠ [] → monthOf t ∈ r.month) ∧
       (r.dayOfWeek ≠ [] → weekdayOf t ∈ r.dayOfWeek) ∧
       (r.dayOfMonth ≠ [] → dayOf t ∈ r.dayOfMonth) ∧
       (r.hour ≠ [] → hourOf t ∈ r.hour) ∧
       (r.minute ≠ [] → minuteOf t ∈ r.minute)) := by
  unfold Matches
  simp only [Bool.and_eq_true, Bool.or_eq_true, doesMatch_iff, List.isEmpty_iff]
  constructor
  · rintro ⟨h1, h2, h3, h4, h5⟩
    exact ⟨fun hne => h1.resolve_left hne, fun hne => h2.resolve_left hne,
      fun hne => h3.resolve_left hne, fun hne => h4.resolve_left hne,
      fun hne => h5.resolve_left hne⟩
  · rintro ⟨h1, h2, h3, h4, h5⟩
    refine ⟨?_, ?_, ?_, ?_, ?_⟩ <;>
      first
        | exact or_iff_not_imp_left.mpr h1
        | exact or_iff_not_imp_left.mpr h2
        | exact or_iff_not_imp_left.mpr h3
        | exact or_iff_not_imp_left.mpr h4
        | exact or_iff_not_imp_left.mpr h5

/-! ## Parsing characterizations -/

theorem digits_no_slash {ds : List Char} (h : ds.all isDig = true) : '/' ∉ ds := by
  intro hm
  have := List.all_eq_true.mp h _ hm
  exact absurd this (by decide)

theorem splitSlash_noSlash (cs : List Char) (h : '/' ∉ cs) : splitSlash cs = [cs] := by
  induction cs with
  | nil => rfl
  | cons c rest ih =>
    simp only [splitSlash]
    rw [if_neg (fun hc => h (by rw [← hc]; exact List.mem_cons_self c rest))]
    rw [ih fun hm => h (List.mem_cons_of_mem _ hm)]

theorem atoi_digits (cs : List Char) (hne : cs ≠ []) (hdig : cs.all isDig = true)
    (hfit : (natOfDigits cs : Int) ≤ 9223372036854775807) :
    atoi cs = some ((natOfDigits cs : Int)) := by
  cases cs with
  | nil => exact absurd rfl hne
  | cons c rest =>
    have hsp := hdig
    rw [List.all_cons, Bool.and_eq_true] at hsp
    have hc : isDig c = true := hsp.1
    have hcm : c ≠ '-' := by rintro rfl; exact absurd hc (by decide)
    have hcp : c ≠ '+' := by rintro rfl; exact absurd hc (by decide)
    have h0 : (0 : Int) ≤ (natOfDigits (c :: rest) : Int) := Int.natCast_nonneg _
    simp only [atoi]
    rw [if_neg (show ¬ ((c = '-' || c = '+') = true) by simp [hcm, hcp])]
    rw [if_neg (show ¬ (((c :: rest).isEmpty || !(c :: rest).all isDig) = true) by
      simp [hdig])]
    rw [if_neg hcm]
    rw [if_pos (show (decide (-9223372036854775808 ≤ (natOfDigits (c :: rest) : Int)) &&
        decide ((natOfDigits (c :: rest) : Int) ≤ 9223372036854775807)) = true by
      simp only [Bool.and_eq_true, decide_eq_true_eq]
      exact ⟨by omega, hfit⟩)]

/-- Characterization of the stepped-wildcard generation loop: with a
positive step, a start below the bound, and enough fuel, it produces
exactly the values `sum + k*v` below `maxsum`, in strictly ascending
order. -/
theorem stepGenF_spec : ∀ (fuel : Nat) (v maxsum sum : Int), 0 < v → sum < maxsum →
    maxsum - sum ≤ v * fuel + v →
    ((∀ x, x ∈ stepGenF fuel v maxsum sum ↔ ∃ k : Nat, x = sum + v * k ∧ x < maxsum) ∧
      List.Chain' (· < ·) (stepGenF fuel v maxsum sum)) := by
  intro fuel
  induction fuel with
  | zero =>
    intro v maxsum sum hv hlt hfuel
    constructor
    · intro x
      simp only [stepGenF, List.mem_singleton]
      constructor
      · rintro rfl; exact ⟨0, by simp, hlt⟩
      · rintro ⟨k, rfl, hx⟩
        have hk0 : k = 0 := by
          by_contra hk
          have hk1 : (1 : Int) ≤ (k : Int) := by exact_mod_cast Nat.one_le_iff_ne_zero.mpr hk
          have h2 : v * 1 ≤ v * (k : Int) := mul_le_mul_of_nonneg_left hk1 (le_of_lt hv)
          simp only [Nat.cast_zero, mul_zero] at hfuel
          omega
        subst hk0; simp
    · simp only [stepGenF]; exact List.chain'_singleton sum
  | succ f ih =>
    intro v maxsum sum hv hlt hfuel
    have hcast : v * ((f + 1 : Nat) : Int) = v * (f : Int) + v := by push_cast; ring
    simp only [stepGenF]
    by_cases hstop : maxsum ≤ sum + v
    · rw [if_pos hstop]
      constructor
      · intro x
        simp only [List.mem_cons, List.not_mem_nil, or_false]
        constructor
        · rintro rfl; exact ⟨0, by simp, hlt⟩
        · rintro ⟨k, rfl, hx⟩
          have hk0 : k = 0 := by
            by_contra hk
            have hk1 : (1 : Int) ≤ (k : Int) := by exact_mod_cast Nat.one_le_iff_ne_zero.mpr hk
            have h2 : v * 1 ≤ v * (k : Int) := mul_le_mul_of_nonneg_left hk1 (le_of_lt hv)
            omega
          subst hk0; simp
      · exact List.chain'_singleton sum
    · rw [if_neg hstop]
      push_neg at hstop
      obtain ⟨ihm, ihc⟩ := ih v maxsum (sum + v) hv hstop (by omega)
      have hhead : ∃ l', stepGenF f v maxsum (sum + v) = (sum + v) :: l' := by
        cases f <;> exact ⟨_, rfl⟩
      obtain ⟨l', hl'⟩ := hhead
      constructor
      · intro x
        rw [List.mem_cons, ihm x]
        constructor
        · rintro (rfl | ⟨k, rfl, hk⟩)
          · exact ⟨0, by simp, hlt⟩
          · exact ⟨k + 1, by push_cast; ring, hk⟩
        · rintro ⟨k, rfl, hk⟩
          cases k with
          | zero => left; simp
          | succ k' =>
            right
            refine ⟨k', by push_cast; ring, ?_⟩
            have : sum + v * ((k' + 1 : Nat) : Int) = sum + v + v * (k' : Int) := by
              push_cast; ring
            omega
      · rw [hl', List.chain'_cons]
        exact ⟨by omega, hl' ▸ ihc⟩

/-- Unfolding equation for `splitSlash` on a cons cell. -/
theorem splitSlash_cons (c : Char) (rest : List Char) :
    splitSlash (c :: rest) =
      if c = '/' then [] :: splitSlash rest
      else
        match splitSlash rest with
        | [] => [[c]]
        | p :: ps => (c :: p) :: ps := rfl

theorem splitSlash_ne_nil (cs : List Char) : splitSlash cs ≠ [] := by
  cases cs with
  | nil => simp [splitSlash]
  | cons c rest =>
    rw [splitSlash_cons]
    by_cases hc : c = '/'
    · rw [if_pos hc]; simp
    · rw [if_neg hc]
      cases splitSlash rest <;> simp

/-- On a stepped-wildcard shape, `strings.Split` yields `["*", digits]`. -/
theorem splitSlash_type1 (ds : List Char) (h : '/' ∉ ds) :
    splitSlash ('*' :: '/' :: ds) = ['*'] :: [ds] := by
  have h2 : splitSlash ('/' :: ds) = [] :: [ds] := by
    rw [splitSlash_cons, if_pos rfl, splitSlash_noSlash ds h]
  rw [splitSlash_cons, if_neg (by decide), h2]

/-- A string matching `^\*/\d+$` has the shape `*/` followed by a
nonempty digit string. -/
theorem ruleType1_shape (cs : List Char) (h : ruleType1Match cs = true) :
    ∃ ds, cs = '*' :: '/' :: ds := by
  unfold ruleType1Match at h
  split at h
  · next ds => exact ⟨ds, rfl⟩
  · exact absurd h (by decide)

/-- The two regex forms are mutually exclusive: a `*/N` item is not an
explicit list (its first `/`-part is `"*"`, not digits). -/
theorem type1_not_type2 (cs : List Char) (h1 : ruleType1Match cs = true) :
    ruleType2Match cs = false := by
  obtain ⟨ds, rfl⟩ := ruleType1_shape cs h1
  unfold ruleType2Match
  rw [splitSlash_cons, if_neg (by decide)]
  cases hs : splitSlash ('/' :: ds) with
  | nil => exact absurd hs (splitSlash_ne_nil _)
  | cons p ps =>
    simp only [List.all_cons]
    simp [show isDig '*' = false from by decide]

/-- On a stepped-wildcard item, `parseRuleItem` reduces to the `*/N`
branch: parse `N`, reject zero and non-dividing steps, else run the
generation loop. -/
theorem parseRuleItem_type1 (r : String) (ds : List Char) (m : Int)
    (hr : r.data = '*' :: '/' :: ds) (hne : ds ≠ []) (hdig : ds.all isDig = true) :
    parseRuleItem r m =
      match atoi ds with
      | none => .error (.couldNotParse r)
      | some v =>
        if v = 0 then .error (.cannotBeZero r)
        else if m ≤ v then .error (.doesNotDivide r)
        else .ok (stepGenF m.toNat v m 0) := by
  have hrstar : r ≠ "*" := by
    intro he
    have hd : r.data = ['*'] := by rw [he]
    rw [hr] at hd
    simp at hd
  have ht1 : ruleType1Match r.data = true := by
    rw [hr]
    simp only [ruleType1Match, Bool.and_eq_true]
    refine ⟨?_, hdig⟩
    cases ds with
    | nil => exact absurd rfl hne
    | cons a l => rfl
  have hsp : splitSlash r.data = ['*'] :: [ds] := by
    rw [hr]; exact splitSlash_type1 ds (digits_no_slash hdig)
  simp only [parseRuleItem, if_neg hrstar, if_pos ht1]
  rw [hsp]
  rfl

/-- On a list item of digit parts that all fit, `listParse` succeeds with
exactly the values (in order) when they exceed `lst` and strictly increase,
and fails with the ordering error otherwise. -/
theorem listParse_spec (r : String) :
    ∀ (ps : List (List Char)) (lst : Int),
      (∀ p ∈ ps, p ≠ [] ∧ p.all isDig = true ∧ (natOfDigits p : Int) ≤ 9223372036854775807) →
      ((List.Chain (· < ·) lst (ps.map fun p => (natOfDigits p : Int)) →
          listParse r ps lst = .ok (ps.map fun p => (natOfDigits p : Int))) ∧
        (¬ List.Chain (· < ·) lst (ps.map fun p => (natOfDigits p : Int)) →
          listParse r ps lst = .error (.badOrdering r))) := by
  intro ps
  induction ps with
  | nil =>
    intro lst hp
    exact ⟨fun _ => rfl, fun hc => absurd List.Chain.nil hc⟩
  | cons p rest ih =>
    intro lst hp
    obtain ⟨hne, hdig, hfit⟩ := hp p (List.mem_cons_self p rest)
    have hrest := fun q hq => hp q (List.mem_cons_of_mem _ hq)
    have ha := atoi_digits p hne hdig hfit
    constructor
    · intro hc
      rw [List.map_cons, List.chain_cons] at hc
      obtain ⟨h1, h2⟩ := hc
      simp only [listParse, ha]
      rw [if_neg (by omega)]
      rw [List.map_cons, (ih _ hrest).1 h2]
      rfl
    · intro hc
      rw [List.map_cons, List.chain_cons] at hc
      simp only [listParse, ha]
      by_cases hv : (natOfDigits p : Int) ≤ lst
      · rw [if_pos hv]
      · rw [if_neg hv]
        have h2 : ¬ List.Chain (· < ·) ((natOfDigits p : Int))
            (rest.map fun q => (natOfDigits q : Int)) := fun hcc => hc ⟨by omega, hcc⟩
        rw [(ih _ hrest).2 h2]
        rfl

theorem exceptBind_ok {ε α β : Type} (a : α) (f : α → Except ε β) :
    (Except.ok a : Except ε α) >>= f = f a := rfl

theorem exceptBind_error {ε α β : Type} (e : ε) (f : α → Except ε β) :
    (Except.error e : Except ε α) >>= f = Except.error e := rfl

/-- A stepped-wildcard field either fails to parse or parses to a list
headed by `0`. -/
theorem parseStep_zero_head (ds : List Char) (maxsum : Int)
    (hne : ds ≠ []) (hdig : ds.all isDig = true) :
    (∃ e, parseRuleItem (String.mk ('*' :: '/' :: ds)) maxsum = .error e) ∨
    (∃ tail, parseRuleItem (String.mk ('*' :: '/' :: ds)) maxsum = .ok (0 :: tail)) := by
  rw [parseRuleItem_type1 (String.mk ('*' :: '/' :: ds)) ds maxsum rfl hne hdig]
  cases atoi ds with
  | none => exact Or.inl ⟨_, rfl⟩
  | some v =>
    dsimp only
    by_cases h0 : v = 0
    · rw [if_pos h0]; exact Or.inl ⟨_, rfl⟩
    · rw [if_neg h0]
      by_cases hge : maxsum ≤ v
      · rw [if_pos hge]; exact Or.inl ⟨_, rfl⟩
      · rw [if_neg hge]
        right
        have hlt : ¬ maxsum ≤ 0 + v := by omega
        cases hft : maxsum.toNat with
        | zero => exact ⟨[], rfl⟩
        | succ f => exact ⟨_, by rw [stepGenF, if_neg hlt]⟩

/-! ## Concrete rules and instants used by witnesses and counterexamples -/

/-- The all-wildcard rule, as built by `NewRule "*" "*" "*" "*" "*"`. -/
def allStarRule : Rule := ⟨[], "*", [], "*", [], "*", [], "*", [], "*"⟩

/-- The rule `30 5 * * *` (05:30 every day), as built by
`NewRule "30" "5" "*" "*" "*"`. -/
def rule30at5 : Rule := ⟨[30], "30", [5], "5", [], "*", [], "*", [], "*"⟩

/-- The unsatisfiable rule `* * 31 2 *` (day 31 of February), as built by
`NewRule "*" "*" "31" "2" "*"`. -/
def feb31Rule : Rule := ⟨[], "*", [], "*", [], "*", [31], "31", [2], "2"⟩

/-- The round-trip example rule, as built by
`NewRule "10/20/30" "*/5" "1" "2/3" "*"`. -/
def ruleExtra : Rule :=
  ⟨[10, 20, 30], "10/20/30", [0, 5, 10, 15, 20], "*/5", [], "*", [1], "1", [2, 3], "2/3"⟩

/-- 2000-01-01 05:30:00 UTC. -/
def t0530 : GoTime := ⟨946704600, 0⟩

/-- 2000-01-01 00:00:00 UTC. -/
def t0000 : GoTime := ⟨946684800, 0⟩

example : NewRule "30" "5" "*" "*" "*" = .ok rule30at5 := rfl
example : NewRule "*" "*" "31" "2" "*" = .ok feb31Rule := rfl
example : NewRule "10/20/30" "*/5" "1" "2/3" "*" = .ok ruleExtra := rfl

/-- At 05:30:00 sharp the rule `30 5 * * *` matches, the round-up of both
minute and hour stalls at the current values, and the search returns the
input instant itself. -/
theorem nextFrom_rule30at5_fix : naiveNextFrom rule30at5 t0530 = t0530 := by
  rw [naiveNextFrom_eq, if_neg (by decide)]
  rw [show from3Val rule30at5 t0530 = t0530 from by decide]
  rw [naiveLoop_eq, if_pos (by decide)]
  decide

/-- From midnight, the rule `30 5 * * *` yields 05:30:00 the same day. -/
theorem nextFrom_rule30at5_first : naiveNextFrom rule30at5 t0000 = t0530 := by
  rw [naiveNextFrom_eq, if_neg (by decide)]
  rw [show from3Val rule30at5 t0000 = t0530 from by decide]
  rw [naiveLoop_eq, if_pos (by decide)]
  decide

/-! ## The claims -/

/-- Claim C1 (amended): for every validly constructed Rule and every
timestamp `from`, the occurrence search returns either the far-future
sentinel or a whole-minute timestamp that is **at or after** `from` (never
strictly before it); strictness can fail, see the counterexample. -/
theorem claim_C1 (mi h dom mo dw : String) (r : Rule)
    (hr : NewRule mi h dom mo dw = .ok r) (t : GoTime) :
    naiveNextFrom r t = sentinel ∨
      ((naiveNextFrom r t).before t = false ∧
        (naiveNextFrom r t).sec % 60 = 0 ∧ (naiveNextFrom r t).nsec = 0) := by
  obtain ⟨-, hvm, -, hvh, -⟩ := NewRule_ok_inv hr
  exact nextFrom_ge r t (validateItemsRange_none hvm) (validateItemsRange_none hvh)

/-- Claim C1, witness: the all-wildcard rule at the epoch. -/
theorem claim_C1_witness :
    naiveNextFrom allStarRule ⟨0, 0⟩ = sentinel ∨
      ((naiveNextFrom allStarRule ⟨0, 0⟩).before ⟨0, 0⟩ = false ∧
        (naiveNextFrom allStarRule ⟨0, 0⟩).sec % 60 = 0 ∧
        (naiveNextFrom allStarRule ⟨0, 0⟩).nsec = 0) :=
  claim_C1 "*" "*" "*" "*" "*" allStarRule rfl ⟨0, 0⟩

/-- Claim C1, counterexample: for the validly constructed rule
`30 5 * * *` and `from` = 2000-01-01 05:30:00 UTC, the search returns
exactly `from`, which is not strictly after `from`. -/
theorem claim_C1_counterexample :
    NewRule "30" "5" "*" "*" "*" = .ok rule30at5 ∧
      naiveNextFrom rule30at5 t0530 = t0530 :=
  ⟨rfl, nextFrom_rule30at5_fix⟩

/-- Claim C2 (amended): for every validly constructed rule and instant `t`,
`nextAfter (nextAfter t)` is either the sentinel or a whole-minute instant
at-or-after `nextAfter t` (forward progress is not strict: a result can
repeat, see the counterexample). -/
theorem claim_C2 (mi h dom mo dw : String) (r : Rule)
    (hr : NewRule mi h dom mo dw = .ok r) (t : GoTime) :
    naiveNextFrom r (naiveNextFrom r t) = sentinel ∨
      ((naiveNextFrom r (naiveNextFrom r t)).before (naiveNextFrom r t) = false ∧
        (naiveNextFrom r (naiveNextFrom r t)).sec % 60 = 0 ∧
        (naiveNextFrom r (naiveNextFrom r t)).nsec = 0) := by
  obtain ⟨-, hvm, -, hvh, -⟩ := NewRule_ok_inv hr
  exact nextFrom_ge r (naiveNextFrom r t)
    (validateItemsRange_none hvm) (validateItemsRange_none hvh)

/-- Claim C2, witness: the all-wildcard rule at the epoch. -/
theorem claim_C2_witness :
    naiveNextFrom allStarRule (naiveNextFrom allStarRule ⟨0, 0⟩) = sentinel ∨
      ((naiveNextFrom allStarRule (naiveNextFrom allStarRule ⟨0, 0⟩)).before
          (naiveNextFrom allStarRule ⟨0, 0⟩) = false ∧
        (naiveNextFrom allStarRule (naiveNextFrom allStarRule ⟨0, 0⟩)).sec % 60 = 0 ∧
        (naiveNextFrom allStarRule (naiveNextFrom allStarRule ⟨0, 0⟩)).nsec = 0) :=
  claim_C2 "*" "*" "*" "*" "*" allStarRule rfl ⟨0, 0⟩

/-- Claim C2, counterexample: the rule `30 5 * * *` is satisfiable (it
matches 2000-01-01 05:30:00), yet from midnight the first search result is
05:30:00 and searching again from that result returns the **same** instant:
`nextAfter (nextAfter t)` is not strictly after `nextAfter t`. -/
theorem claim_C2_counterexample :
    NewRule "30" "5" "*" "*" "*" = .ok rule30at5 ∧
      Matches rule30at5 t0530 = true ∧
      naiveNextFrom rule30at5 t0000 = t0530 ∧
      naiveNextFrom rule30at5 (naiveNextFrom rule30at5 t0000) =
        naiveNextFrom rule30at5 t0000 := by
  refine ⟨rfl, by decide, nextFrom_rule30at5_first, ?_⟩
  rw [nextFrom_rule30at5_first]
  exact nextFrom_rule30at5_fix

/-- Claim C3: the occurrence search is total (it is a function in this
embedding, with the day-stepping loop bounded by `naiveMaxIterations`);
for any rule matching no instant it returns the far-future sentinel, and in
particular it does so for the validly constructed rule `* * 31 2 *`
(day-of-month 31 with month 2), from every starting instant. -/
theorem claim_C3 :
    (∀ (r : Rule), (∀ u, Matches r u = false) → ∀ t, naiveNextFrom r t = sentinel) ∧
    (∀ (r : Rule), NewRule "*" "*" "31" "2" "*" = .ok r →
      ∀ t, naiveNextFrom r t = sentinel) := by
  constructor
  · exact fun r hnm t => nextFrom_neverMatch r hnm t
  · intro r hr t
    have hr' : Except.ok feb31Rule = Except.ok r := hr
    cases hr'
    exact nextFrom_neverMatch feb31Rule (feb31_never_matches feb31Rule rfl rfl) t

/-- Claim C3, witness: the February-31 rule at midnight 2000-01-01. -/
theorem claim_C3_witness : naiveNextFrom feb31Rule t0000 = sentinel :=
  claim_C3.2 feb31Rule rfl t0000

/-- Claim C4 (amended): `NewRule` validates the fields in the fixed order
minute, hour, day-of-week, day-of-month, month and returns the first
error; **range** errors are wrapped with the field's name, while grammar
(parse) errors are returned without it; no partial Rule is ever exposed.
Stated as equality with the staged reference pipeline `newRuleRef`. -/
theorem claim_C4 (mi h dom mo dw : String) :
    NewRule mi h dom mo dw = newRuleRef mi h dom mo dw :=
  newRule_eq_ref mi h dom mo dw

/-- Claim C4, counterexample: a minute-field ordering error surfaces
without the field's name (the claim said every first error is wrapped with
the offending field's name). -/
theorem claim_C4_counterexample :
    NewRule "30/20/10" "*" "*" "*" "*" = .error (.parse (.badOrdering "30/20/10")) ∧
      (RuleErr.parse (.badOrdering "30/20/10")).hasFieldName = false :=
  ⟨rfl, rfl⟩

/-- Claim C5 (amended): for every modulus `m` and step text `N` (a
nonempty digit string) whose value fits a signed 64-bit integer, parsing
`*/N` fails with the zero-step error when `N = 0`, fails with the
non-dividing-step error when `N ≥ m`, and otherwise yields exactly the
ascending multiples of `N` starting at `0` and strictly less than `m`
(`0` always included).  Without the 64-bit bound the could-not-be-parsed
error is produced instead, see the counterexample. -/
theorem claim_C5 (r : String) (ds : List Char) (m : Int)
    (hr : r.data = '*' :: '/' :: ds) (hne : ds ≠ []) (hdig : ds.all isDig = true)
    (hfit : (natOfDigits ds : Int) ≤ 9223372036854775807) :
    (natOfDigits ds = 0 → parseRuleItem r m = .error (.cannotBeZero r)) ∧
    (0 < natOfDigits ds → m ≤ (natOfDigits ds : Int) →
      parseRuleItem r m = .error (.doesNotDivide r)) ∧
    (0 < natOfDigits ds → (natOfDigits ds : Int) < m →
      ∃ l, parseRuleItem r m = .ok l ∧ 0 ∈ l ∧ List.Chain' (· < ·) l ∧
        (∀ x, x ∈ l ↔ ∃ k : Nat, x = (natOfDigits ds : Int) * k ∧ x < m)) := by
  have hpar := parseRuleItem_type1 r ds m hr hne hdig
  rw [atoi_digits ds hne hdig hfit] at hpar
  dsimp only at hpar
  refine ⟨?_, ?_, ?_⟩
  · intro h0
    rw [hpar, if_pos (by exact_mod_cast h0)]
  · intro h0 hge
    rw [hpar, if_neg (by omega), if_pos hge]
  · intro h0 hlt
    rw [hpar, if_neg (by omega), if_neg (by omega)]
    refine ⟨_, rfl, ?_, ?_, ?_⟩
    rotate_left 2
    · have hv : (0 : Int) < (natOfDigits ds : Int) := by omega
      have hm0 : (0 : Int) < m := by omega
      have htn : ((m.toNat : Nat) : Int) = m := Int.toNat_of_nonneg (le_of_lt hm0)
      have hmul : (1 : Int) * ((m.toNat : Nat) : Int) ≤
          (natOfDigits ds : Int) * ((m.toNat : Nat) : Int) :=
        mul_le_mul_of_nonneg_right (by omega) (by omega)
      have hfuel : m - 0 ≤ (natOfDigits ds : Int) * ((m.toNat : Nat) : Int) +
          (natOfDigits ds : Int) := by
        rw [one_mul] at hmul
        omega
      obtain ⟨hmem, hchain⟩ := stepGenF_spec m.toNat (natOfDigits ds) m 0 hv (by omega) hfuel
      intro x
      rw [hmem x]
      constructor
      · rintro ⟨k, rfl, hk⟩
        exact ⟨k, by ring, hk⟩
      · rintro ⟨k, rfl, hk⟩
        exact ⟨k, by ring, hk⟩
    · have hv : (0 : Int) < (natOfDigits ds : Int) := by omega
      have hm0 : (0 : Int) < m := by omega
      have htn : ((m.toNat : Nat) : Int) = m := Int.toNat_of_nonneg (le_of_lt hm0)
      have hmul : (1 : Int) * ((m.toNat : Nat) : Int) ≤
          (natOfDigits ds : Int) * ((m.toNat : Nat) : Int) :=
        mul_le_mul_of_nonneg_right (by omega) (by omega)
      have hfuel : m - 0 ≤ (natOfDigits ds : Int) * ((m.toNat : Nat) : Int) +
          (natOfDigits ds : Int) := by
        rw [one_mul] at hmul
        omega
      obtain ⟨hmem, hchain⟩ := stepGenF_spec m.toNat (natOfDigits ds) m 0 hv (by omega) hfuel
      rw [hmem 0]
      exact ⟨0, by simp, by omega⟩
    · have hv : (0 : Int) < (natOfDigits ds : Int) := by omega
      have hm0 : (0 : Int) < m := by omega
      have htn : ((m.toNat : Nat) : Int) = m := Int.toNat_of_nonneg (le_of_lt hm0)
      have hmul : (1 : Int) * ((m.toNat : Nat) : Int) ≤
          (natOfDigits ds : Int) * ((m.toNat : Nat) : Int) :=
        mul_le_mul_of_nonneg_right (by omega) (by omega)
      have hfuel : m - 0 ≤ (natOfDigits ds : Int) * ((m.toNat : Nat) : Int) +
          (natOfDigits ds : Int) := by
        rw [one_mul] at hmul
        omega
      exact (stepGenF_spec m.toNat (natOfDigits ds) m 0 hv (by omega) hfuel).2

/-- Claim C5, witness: `*/5` with modulus 60. -/
theorem claim_C5_witness :
    (natOfDigits ['5'] = 0 → parseRuleItem "*/5" 60 = .error (.cannotBeZero "*/5")) ∧
    (0 < natOfDigits ['5'] → (60 : Int) ≤ (natOfDigits ['5'] : Int) →
      parseRuleItem "*/5" 60 = .error (.doesNotDivide "*/5")) ∧
    (0 < natOfDigits ['5'] → (natOfDigits ['5'] : Int) < 60 →
      ∃ l, parseRuleItem "*/5" 60 = .ok l ∧ 0 ∈ l ∧ List.Chain' (· < ·) l ∧
        (∀ x, x ∈ l ↔ ∃ k : Nat, x = (natOfDigits ['5'] : Int) * k ∧ x < 60)) :=
  claim_C5 "*/5" ['5'] 60 rfl (by decide) (by decide) (by decide)

/-- Claim C5, counterexample: for the step text `9223372036854775808`
(2^63, does not fit int64) and modulus 60, `N ≥ m` holds but the parser
returns the could-not-be-parsed error, not the non-dividing-step error. -/
theorem claim_C5_counterexample :
    parseRuleItem "*/9223372036854775808" 60 =
      .error (.couldNotParse "*/9223372036854775808") ∧
    parseRuleItem "*/9223372036854775808" 60 ≠
      .error (.doesNotDivide "*/9223372036854775808") := by
  refine ⟨rfl, ?_⟩
  intro hcon
  have h1 : parseRuleItem "*/9223372036854775808" 60 =
      .error (.couldNotParse "*/9223372036854775808") := rfl
  rw [h1] at hcon
  injection hcon with h2
  simp at h2

/-- Claim C6 (amended): for every explicit list field (two or more
`/`-separated digit tokens, values fitting int64), parsing succeeds with
exactly the token values in order precisely when the values are strictly
increasing **and the first value is positive** (the loop's initial
previous value is `0`, so a leading `0` is rejected); otherwise it fails
with the ordering error. -/
theorem claim_C6 (r : String) (m : Int) (h2 : ruleType2Match r.data = true)
    (hfit : ∀ p ∈ splitSlash r.data, (natOfDigits p : Int) ≤ 9223372036854775807) :
    (List.Chain (· < ·) 0 ((splitSlash r.data).map fun p => (natOfDigits p : Int)) →
        parseRuleItem r m = .ok ((splitSlash r.data).map fun p => (natOfDigits p : Int))) ∧
    (¬ List.Chain (· < ·) 0 ((splitSlash r.data).map fun p => (natOfDigits p : Int)) →
        parseRuleItem r m = .error (.badOrdering r)) := by
  have hparts : ∀ p ∈ splitSlash r.data, p ≠ [] ∧ p.all isDig = true := by
    intro p hp
    unfold ruleType2Match at h2
    rw [Bool.and_eq_true] at h2
    have hall := List.all_eq_true.mp h2.2 p hp
    rw [Bool.and_eq_true] at hall
    constructor
    · intro he
      rw [he] at hall
      exact absurd hall.1 (by decide)
    · exact hall.2
  have hrstar : r ≠ "*" := by
    intro he
    have hd : r.data = ['*'] := by rw [he]
    rw [hd] at h2
    exact absurd h2 (by decide)
  have ht1 : ruleType1Match r.data = false := by
    cases h1 : ruleType1Match r.data with
    | false => rfl
    | true =>
      rw [type1_not_type2 _ h1] at h2
      exact absurd h2 (by decide)
  have hpr : parseRuleItem r m = listParse r (splitSlash r.data) 0 := by
    simp only [parseRuleItem, if_neg hrstar]
    rw [ht1]
    rw [if_neg (show ¬ (false = true) by decide)]
    rw [if_pos h2]
  have hcomb : ∀ p ∈ splitSlash r.data,
      p ≠ [] ∧ p.all isDig = true ∧ (natOfDigits p : Int) ≤ 9223372036854775807 :=
    fun p hp => ⟨(hparts p hp).1, (hparts p hp).2, hfit p hp⟩
  rw [hpr]
  exact listParse_spec r (splitSlash r.data) 0 hcomb

/-- Claim C6, witness: `10/20/30` with modulus 60. -/
theorem claim_C6_witness :
    (List.Chain (· < ·) 0 ((splitSlash "10/20/30".data).map fun p => (natOfDigits p : Int)) →
        parseRuleItem "10/20/30" 60 =
          .ok ((splitSlash "10/20/30".data).map fun p => (natOfDigits p : Int))) ∧
    (¬ List.Chain (· < ·) 0 ((splitSlash "10/20/30".data).map fun p => (natOfDigits p : Int)) →
        parseRuleItem "10/20/30" 60 = .error (.badOrdering "10/20/30")) :=
  claim_C6 "10/20/30" 60 (by decide) (by decide)

/-- Claim C6, counterexample: the token list `0/5` is strictly increasing
left to right, yet parsing fails with the ordering error (the initial
comparison value is `0`, so the leading `0` is rejected). -/
theorem claim_C6_counterexample :
    parseRuleItem "0/5" 60 = .error (.badOrdering "0/5") ∧
      List.Chain' (· < ·) [(0 : Int), 5] :=
  ⟨rfl, by
    rw [List.chain'_cons]
    exact ⟨by norm_num, List.chain'_singleton 5⟩⟩

/-- Claim C7: a stepped wildcard `*/N` in the day-of-month position or in
the month position always makes construction fail: either the step text
itself is rejected, or the generated sequence starts at `0`, which is
below those fields' minimum of `1`, so range validation rejects it. -/
theorem claim_C7 (a b c d : String) (ds : List Char)
    (hne : ds ≠ []) (hdig : ds.all isDig = true) :
    (∃ e, NewRule a b (String.mk ('*' :: '/' :: ds)) c d = .error e) ∧
    (∃ e, NewRule a b c (String.mk ('*' :: '/' :: ds)) d = .error e) := by
  have hdomStage : ∃ e,
      fieldStage RuleErr.dayOfMonthInvalid (String.mk ('*' :: '/' :: ds)) 31 1 31 =
        .error e := by
    rcases parseStep_zero_head ds 31 hne hdig with ⟨e, he⟩ | ⟨tail, he⟩
    · exact ⟨.parse e, by unfold fieldStage; rw [he]⟩
    · exact ⟨.dayOfMonthInvalid (.tooSmall 0 1), by unfold fieldStage; rw [he]; rfl⟩
  have hmoStage : ∃ e,
      fieldStage RuleErr.monthInvalid (String.mk ('*' :: '/' :: ds)) 24 1 12 =
        .error e := by
    rcases parseStep_zero_head ds 24 hne hdig with ⟨e, he⟩ | ⟨tail, he⟩
    · exact ⟨.parse e, by unfold fieldStage; rw [he]⟩
    · exact ⟨.monthInvalid (.tooSmall 0 1), by unfold fieldStage; rw [he]; rfl⟩
  constructor
  · obtain ⟨e4, he4⟩ := hdomStage
    rw [newRule_eq_ref]
    unfold newRuleRef
    cases h1 : fieldStage RuleErr.minuteInvalid a 60 0 59 with
    | error e1 => exact ⟨e1, by simp only [h1, exceptBind_error]⟩
    | ok m1 =>
      simp only [h1, exceptBind_ok]
      cases hh : fieldStage RuleErr.hourInvalid b 24 0 23 with
      | error e2 => exact ⟨e2, by simp only [hh, exceptBind_error]⟩
      | ok m2 =>
        simp only [hh, exceptBind_ok]
        cases h3 : fieldStage RuleErr.dayOfWeekInvalid d 7 0 7 with
        | error e3 => exact ⟨e3, by simp only [h3, exceptBind_error]⟩
        | ok m3 =>
          simp only [h3, exceptBind_ok]
          exact ⟨e4, by simp only [he4, exceptBind_error]⟩
  · obtain ⟨e5, he5⟩ := hmoStage
    rw [newRule_eq_ref]
    unfold newRuleRef
    cases h1 : fieldStage RuleErr.minuteInvalid a 60 0 59 with
    | error e1 => exact ⟨e1, by simp only [h1, exceptBind_error]⟩
    | ok m1 =>
      simp only [h1, exceptBind_ok]
      cases hh : fieldStage RuleErr.hourInvalid b 24 0 23 with
      | error e2 => exact ⟨e2, by simp only [hh, exceptBind_error]⟩
      | ok m2 =>
        simp only [hh, exceptBind_ok]
        cases h3 : fieldStage RuleErr.dayOfWeekInvalid d 7 0 7 with
        | error e3 => exact ⟨e3, by simp only [h3, exceptBind_error]⟩
        | ok m3 =>
          simp only [h3, exceptBind_ok]
          cases h4 : fieldStage RuleErr.dayOfMonthInvalid c 31 1 31 with
          | error e4 => exact ⟨e4, by simp only [h4, exceptBind_error]⟩
          | ok m4 =>
            simp only [h4, exceptBind_ok]
            exact ⟨e5, by simp only [he5, exceptBind_error]⟩

/-- Claim C7, witness: `*/5` in both positions with all other fields `*`. -/
theorem claim_C7_witness :
    (∃ e, NewRule "*" "*" (String.mk ('*' :: '/' :: ['5'])) "*" "*" = .error e) ∧
    (∃ e, NewRule "*" "*" "*" (String.mk ('*' :: '/' :: ['5'])) "*" = .error e) :=
  claim_C7 "*" "*" "*" "*" ['5'] (by decide) (by decide)

/-- Claim C8: `Matches` is true precisely when each of the five fields
with a nonempty value set contains the corresponding component of the
timestamp (month, weekday, day-of-month, hour, minute), empty sets
imposing no constraint; and the rule built from all wildcards matches
every timestamp. -/
theorem claim_C8 :
    (∀ (r : Rule) (t : GoTime), Matches r t = true ↔
      ((r.month ≠ [] → monthOf t ∈ r.month) ∧
       (r.dayOfWeek ≠ [] → weekdayOf t ∈ r.dayOfWeek) ∧
       (r.dayOfMonth ≠ [] → dayOf t ∈ r.dayOfMonth) ∧
       (r.hour ≠ [] → hourOf t ∈ r.hour) ∧
       (r.minute ≠ [] → minuteOf t ∈ r.minute))) ∧
    (∀ (r : Rule), NewRule "*" "*" "*" "*" "*" = .ok r → ∀ t, Matches r t = true) := by
  refine ⟨Matches_iff, ?_⟩
  intro r hr t
  have hr' : Except.ok allStarRule = Except.ok r := hr
  cases hr'
  rfl

/-- Claim C8, witness: the all-wildcard rule matches the 2000-01-01
midnight instant. -/
theorem claim_C8_witness : Matches allStarRule t0000 = true :=
  claim_C8.2 allStarRule rfl t0000

/-- Claim C9: for every five field strings accepted by `NewRule`, the
rule's string form is exactly the five original inputs joined by single
spaces in the order minute, hour, day-of-month, month, day-of-week, with
no normalization. -/
theorem claim_C9 (mi h dom mo dw : String) (r : Rule)
    (hr : NewRule mi h dom mo dw = .ok r) :
    ruleString r = mi ++ " " ++ h ++ " " ++ dom ++ " " ++ mo ++ " " ++ dw := by
  obtain ⟨-, -, -, -, -, -, -, -, -, -, h1, h2, h3, h4, h5⟩ := NewRule_ok_inv hr
  unfold ruleString
  rw [h1, h2, h3, h4, h5]

/-- Claim C9, witness: the spec's round-trip example
`("10/20/30","*/5","1","2/3","*")`. -/
theorem claim_C9_witness :
    ruleString ruleExtra =
      "10/20/30" ++ " " ++ "*/5" ++ " " ++ "1" ++ " " ++ "2/3" ++ " " ++ "*" :=
  claim_C9 "10/20/30" "*/5" "1" "2/3" "*" ruleExtra rfl

/-- Claim C10: `Matches` depends only on the minute, hour, day-of-month,
month and weekday components of its argument: two timestamps agreeing on
those five components get the same result from every rule. -/
theorem claim_C10 (r : Rule) (t u : GoTime)
    (h1 : minuteOf t = minuteOf u) (h2 : hourOf t = hourOf u)
    (h3 : dayOf t = dayOf u) (h4 : monthOf t = monthOf u)
    (h5 : weekdayOf t = weekdayOf u) :
    Matches r t = Matches r u := by
  unfold Matches
  rw [h1, h2, h3, h4, h5]

/-- Claim C10, witness: 2000-01-01 00:00:00.0 and 2000-01-01 00:00:30.0000005
agree on all five components (they differ only in seconds and
nanoseconds), so the rule `30 5 * * *` treats them alike. -/
theorem claim_C10_witness :
    Matches rule30at5 ⟨946684800, 0⟩ = Matches rule30at5 ⟨946684830, 500⟩ :=
  claim_C10 rule30at5 ⟨946684800, 0⟩ ⟨946684830, 500⟩
    (by decide) (by decide) (by decide) (by decide) (by decide)
